import Mathlib

/-
Verification of the libDAI factor-algebra and belief-propagation core
(include/dai/factor.h and src/bp.cpp) against its specification.

The development shallowly embeds the code: factors are (VarSet, value list)
pairs, the mixed-radix linear state encoding follows VarSet::calcState, and
the BP message computations mirror bp.cpp line by line.  Scalars are kept
polymorphic over a linear ordered field, instantiated with the rationals for
executable checks and with the reals where logarithms and exponentials are
genuinely needed.  Components that the sources consume but do not define
(dai/prob.h, dai/varset.h, dai/index.h) are modelled from the specification
and marked as such in their doc comments.
-/

set_option linter.unusedVariables false

namespace LibDAI

/-- A discrete variable of the factor graph: a stable integer label together
with its number of states.  Mirrors dai::Var. -/
structure Var where
  label : ℕ
  states : ℕ
deriving DecidableEq

/-- A VarSet is modelled as a list of variables; well-formed VarSets are
strictly sorted by label, which is the contractual ordering of the linear
state encoding. -/
abbrev VarSet := List Var

/-- Well-formedness of a VarSet: strictly increasing labels. -/
def VSSorted (vs : VarSet) : Prop :=
  List.Pairwise (fun a b => a.label < b.label) vs

instance (vs : VarSet) : Decidable (VSSorted vs) := by
  unfold VSSorted; infer_instance

/-- Number of joint states of a VarSet: the product of the state counts
(1 for the empty set).  Mirrors VarSet::nrStates. -/
def nrStates (vs : VarSet) : ℕ := (vs.map Var.states).prod

/-- Linear (mixed-radix) encoding of a joint state x over the label-sorted
VarSet vs; the least significant digit belongs to the lowest-labelled
variable.  Mirrors VarSet::calcState, the ordering contract of the spec. -/
def calcState (vs : VarSet) (x : Var → ℕ) : ℕ :=
  match vs with
  | [] => 0
  | v :: rest => x v + v.states * calcState rest x

/-- Inverse of the linear encoding: the state of variable w in the joint
state whose linear index is k (0 for variables outside vs).  Mirrors
VarSet::calcStates. -/
def calcStates (vs : VarSet) (k : ℕ) : Var → ℕ :=
  match vs with
  | [] => fun _ => 0
  | v :: rest => fun w => if w = v then k % v.states else calcStates rest (k / v.states) w

/-- Modelled from the spec: the MixedRadixIndex / IndexFor table of
dai/index.h (whose source is not part of the given files).  Entry k is the
inner linear index of the restriction to the inner VarSet of the joint state
decoded from outer linear index k. -/
def IndexFor (inner outer : VarSet) : List ℕ :=
  (List.range (nrStates outer)).map (fun k => calcState inner (calcStates outer k))

/-- A joint state is valid on a VarSet when each digit is below the state
count of its variable. -/
def ValidState (vs : VarSet) (x : Var → ℕ) : Prop := ∀ v ∈ vs, x v < v.states

instance (vs : VarSet) (x : Var → ℕ) : Decidable (ValidState vs x) := by
  unfold ValidState; infer_instance

theorem calcState_lt (vs : VarSet) (x : Var → ℕ) (hx : ValidState vs x) :
    calcState vs x < nrStates vs := by
  induction vs with
  | nil => simp [calcState, nrStates]
  | cons v rest ih =>
    have hv : x v < v.states := hx v (by simp)
    have hrest : calcState rest x < nrStates rest :=
      ih (fun w hw => hx w (by simp [hw]))
    have h1 : calcState rest x + 1 ≤ nrStates rest := hrest
    calc x v + v.states * calcState rest x
        < v.states + v.states * calcState rest x := by omega
      _ = v.states * (calcState rest x + 1) := by ring
      _ ≤ v.states * nrStates rest := Nat.mul_le_mul_left _ h1
      _ = nrStates (v :: rest) := by simp [nrStates]

theorem calcState_congr (vs : VarSet) (x y : Var → ℕ)
    (h : ∀ v ∈ vs, x v = y v) : calcState vs x = calcState vs y := by
  induction vs with
  | nil => rfl
  | cons v rest ih =>
    have hv := h v (List.mem_cons_self v rest)
    have hrest := ih (fun w hw => h w (List.mem_cons_of_mem v hw))
    show x v + v.states * calcState rest x = y v + v.states * calcState rest y
    rw [hv, hrest]

theorem calcStates_calcState (vs : VarSet) (x : Var → ℕ)
    (hs : VSSorted vs) (hx : ValidState vs x) :
    ∀ v ∈ vs, calcStates vs (calcState vs x) v = x v := by
  induction vs with
  | nil => intro v hv; cases hv
  | cons v rest ih =>
    intro w hw
    have hv : x v < v.states := hx v (by simp)
    have hvpos : 0 < v.states := Nat.pos_of_ne_zero (by omega)
    have hmod : (x v + v.states * calcState rest x) % v.states = x v := by
      rw [Nat.add_mul_mod_self_left, Nat.mod_eq_of_lt hv]
    have hdiv : (x v + v.states * calcState rest x) / v.states = calcState rest x := by
      rw [Nat.add_mul_div_left _ _ hvpos, Nat.div_eq_of_lt hv, Nat.zero_add]
    rcases List.mem_cons.mp hw with hwv | hwr
    · subst hwv
      simp only [calcStates, calcState, if_pos rfl]
      exact hmod
    · have hne : w ≠ v := by
        intro he
        have := (List.pairwise_cons.mp hs).1 w hwr
        rw [he] at this
        omega
      simp only [calcStates, calcState, if_neg hne]
      rw [hdiv]
      exact ih (List.pairwise_cons.mp hs).2 (fun u hu => hx u (by simp [hu])) w hwr

theorem calcStates_lt (vs : VarSet) (k : ℕ) (v : Var) (hv : 0 < v.states) :
    calcStates vs k v < v.states := by
  induction vs generalizing k with
  | nil => simpa [calcStates] using hv
  | cons u rest ih =>
    simp only [calcStates]
    by_cases h : v = u
    · subst h
      simp only [if_pos rfl]
      exact Nat.mod_lt _ hv
    · simp only [if_neg h]
      exact ih _

theorem IndexFor_length (inner outer : VarSet) :
    (IndexFor inner outer).length = nrStates outer := by
  simp [IndexFor]

theorem IndexFor_getD (inner outer : VarSet) (k : ℕ) (hk : k < nrStates outer) :
    (IndexFor inner outer).getD k 0 = calcState inner (calcStates outer k) := by
  have hlen : k < (IndexFor inner outer).length := by
    rw [IndexFor_length]; exact hk
  rw [List.getD_eq_getElem _ _ hlen]
  simp [IndexFor]

/-- The key index-translation property (spec property 7): at the position
encoding a valid joint state x of the outer VarSet, the index table holds the
inner encoding of x. -/
theorem IndexFor_spec (inner outer : VarSet) (x : Var → ℕ)
    (hs : VSSorted outer) (hsub : ∀ v ∈ inner, v ∈ outer)
    (hx : ValidState outer x) :
    (IndexFor inner outer).getD (calcState outer x) 0 = calcState inner x := by
  rw [IndexFor_getD _ _ _ (calcState_lt outer x hx)]
  exact calcState_congr inner _ x
    (fun v hv => calcStates_calcState outer x hs hx v (hsub v hv))

/-- Every entry of an index table whose inner VarSet is a single variable is
a valid state of that variable (needed for in-bounds message access). -/
theorem IndexFor_single_lt (v : Var) (outer : VarSet) (hv : 0 < v.states)
    (e : ℕ) (he : e ∈ IndexFor [v] outer) : e < v.states := by
  simp only [IndexFor, List.mem_map] at he
  obtain ⟨k, _, hk⟩ := he
  subst hk
  simp only [calcState]
  have := calcStates_lt outer k v hv
  omega

/-- A value vector, mirroring TProb: a dense list of scalars. -/
abbrev TProb (α : Type) := List α

/-- A factor, mirroring TFactor: a VarSet together with a value vector whose
length is (for well-formed factors) the number of joint states. -/
structure TFactor (α : Type) where
  vs : VarSet
  p : TProb α
deriving DecidableEq

/-- Well-formedness of a factor: sorted VarSet, positive state counts and a
value vector of matching length. -/
def FactorWF {α : Type} (f : TFactor α) : Prop :=
  VSSorted f.vs ∧ (∀ v ∈ f.vs, 0 < v.states) ∧ f.p.length = nrStates f.vs

instance {α : Type} [DecidableEq α] (f : TFactor α) : Decidable (FactorWF f) := by
  unfold FactorWF; infer_instance

/-- Total sum of the values, mirroring TProb::totalSum. -/
def totalSum {α : Type} [AddCommMonoid α] (l : TProb α) : α := l.sum

/-- Modelled from the spec: probability normalization (NORMPROB) of
dai/prob.h divides every entry by the total sum.  The fatal
NONNORMALIZABLE error on a zero sum is outside the scope of the claims
settled here; division is the total field division. -/
def normPROB {α : Type} [Field α] (l : TProb α) : TProb α :=
  l.map (fun x => x / totalSum l)

/-- Modelled from the spec: pointwise minimum of two value vectors (the free
function min on TProb from dai/prob.h, whose source is not given). -/
def probMin {α : Type} [LinearOrder α] (a b : TProb α) : TProb α :=
  List.zipWith (fun x y => Min.min x y) a b

/-- Modelled from the spec: pointwise maximum of two value vectors (the free
function max on TProb from dai/prob.h, whose source is not given). -/
def probMax {α : Type} [LinearOrder α] (a b : TProb α) : TProb α :=
  List.zipWith (fun x y => Max.max x y) a b

/-- The free function max on TFactor (factor.h lines 522-525).  The source
reads: return TFactor(f.vs, min(f.p(), g.p())) — it calls the pointwise
MINIMUM of the value vectors.  Precondition (asserted): f.vs = g.vs. -/
def fmax {α : Type} [LinearOrder α] (f g : TFactor α) : TFactor α :=
  ⟨f.vs, probMin f.p g.p⟩

/-- The free function min on TFactor (factor.h lines 532-535).  The source
reads: return TFactor(f.vs, max(f.p(), g.p())) — it calls the pointwise
MAXIMUM of the value vectors.  Precondition (asserted): f.vs = g.vs. -/
def fmin {α : Type} [LinearOrder α] (f g : TFactor α) : TFactor α :=
  ⟨f.vs, probMax f.p g.p⟩

/-- C1: on equal VarSets, the free function max(f, g) of factor.h returns
the elementwise MINIMUM of the two factors and min(f, g) the elementwise
MAXIMUM — the opposite of the documented semantics.  At the scalar factors
f = [0], g = [1] on the empty VarSet, max(f, g) holds 0 = min(0, 1) while
the elementwise maximum is 1, and min(f, g) holds 1 = max(0, 1). -/
theorem C1_max_min_swapped :
    fmax (⟨[], [0]⟩ : TFactor ℚ) ⟨[], [1]⟩ = ⟨[], [Min.min 0 1]⟩ ∧
    fmin (⟨[], [0]⟩ : TFactor ℚ) ⟨[], [1]⟩ = ⟨[], [Max.max 0 1]⟩ ∧
    Min.min (0 : ℚ) 1 = 0 ∧ Max.max (0 : ℚ) 1 = 1 ∧ (0 : ℚ) ≠ 1 := by
  refine ⟨rfl, rfl, by norm_num, by norm_num, by norm_num⟩

/-- Sorted insertion of a variable into a VarSet by label; when the label is
already present the inserted variable replaces the incumbent. -/
def insertVar (v : Var) : VarSet -> VarSet
  | [] => [v]
  | w :: ws =>
      if v.label < w.label then v :: w :: ws
      else if w.label < v.label then w :: insertVar v ws
      else v :: ws

/-- Modelled from the spec: VarSet union (operator| of dai/varset.h, whose
source is not given): label-ordered merge keeping, for shared labels, the
element of the first operand. -/
def vsUnion (a b : VarSet) : VarSet := a.foldr insertVar b

theorem mem_insertVar_elim (v : Var) (ws : VarSet) (u : Var)
    (hu : u ∈ insertVar v ws) : u = v ∨ u ∈ ws := by
  induction ws with
  | nil => simpa [insertVar] using hu
  | cons w t ih =>
    rw [insertVar] at hu
    by_cases h1 : v.label < w.label
    · rw [if_pos h1] at hu
      rcases List.mem_cons.mp hu with h | h
      · exact Or.inl h
      · exact Or.inr h
    · rw [if_neg h1] at hu
      by_cases h2 : w.label < v.label
      · rw [if_pos h2] at hu
        rcases List.mem_cons.mp hu with h | h
        · exact Or.inr (by simp [h])
        · rcases ih h with h3 | h3
          · exact Or.inl h3
          · exact Or.inr (by simp [h3])
      · rw [if_neg h2] at hu
        rcases List.mem_cons.mp hu with h | h
        · exact Or.inl h
        · exact Or.inr (by simp [h])

theorem self_mem_insertVar (v : Var) (ws : VarSet) : v ∈ insertVar v ws := by
  induction ws with
  | nil => simp [insertVar]
  | cons w t ih =>
    rw [insertVar]
    by_cases h1 : v.label < w.label
    · rw [if_pos h1]; simp
    · rw [if_neg h1]
      by_cases h2 : w.label < v.label
      · rw [if_pos h2]
        exact List.mem_cons.mpr (Or.inr ih)
      · rw [if_neg h2]; simp

theorem mem_insertVar_of_mem (v : Var) (ws : VarSet) (u : Var)
    (hu : u ∈ ws) (hne : u.label = v.label → u = v) : u ∈ insertVar v ws := by
  induction ws with
  | nil => cases hu
  | cons w t ih =>
    rw [insertVar]
    by_cases h1 : v.label < w.label
    · rw [if_pos h1]
      exact List.mem_cons.mpr (Or.inr hu)
    · rw [if_neg h1]
      by_cases h2 : w.label < v.label
      · rw [if_pos h2]
        rcases List.mem_cons.mp hu with h | h
        · exact List.mem_cons.mpr (Or.inl h)
        · exact List.mem_cons.mpr (Or.inr (ih h))
      · rw [if_neg h2]
        rcases List.mem_cons.mp hu with h | h
        · have hl : u.label = v.label := by subst h; omega
          exact List.mem_cons.mpr (Or.inl (hne hl))
        · exact List.mem_cons.mpr (Or.inr h)

theorem mem_vsUnion_elim (a b : VarSet) (u : Var) (hu : u ∈ vsUnion a b) :
    u ∈ a ∨ u ∈ b := by
  induction a with
  | nil => exact Or.inr hu
  | cons v vs ih =>
    rcases mem_insertVar_elim v (vsUnion vs b) u hu with h | h
    · exact Or.inl (by simp [h])
    · rcases ih h with h1 | h1
      · exact Or.inl (by simp [h1])
      · exact Or.inr h1

theorem subset_vsUnion_left (a b : VarSet) (ha : VSSorted a)
    (hcompat : ∀ v ∈ a, ∀ w ∈ b, v.label = w.label → v = w) :
    ∀ u ∈ a, u ∈ vsUnion a b := by
  induction a with
  | nil => intro u hu; cases hu
  | cons v vs ih =>
    intro u hu
    rcases List.mem_cons.mp hu with h | h
    · subst h
      exact self_mem_insertVar u (vsUnion vs b)
    · have hrec : u ∈ vsUnion vs b :=
        ih (List.pairwise_cons.mp ha).2
          (fun v1 hv1 w1 hw1 he => hcompat v1 (by simp [hv1]) w1 hw1 he) u h
      refine mem_insertVar_of_mem v (vsUnion vs b) u hrec ?_
      intro hl
      have := (List.pairwise_cons.mp ha).1 u h
      omega

theorem subset_vsUnion_right (a b : VarSet) (ha : VSSorted a)
    (hcompat : ∀ v ∈ a, ∀ w ∈ b, v.label = w.label → v = w) :
    ∀ u ∈ b, u ∈ vsUnion a b := by
  induction a with
  | nil => intro u hu; exact hu
  | cons v vs ih =>
    intro u hu
    have hrec : u ∈ vsUnion vs b :=
      ih (List.pairwise_cons.mp ha).2
        (fun v1 hv1 w1 hw1 he => hcompat v1 (by simp [hv1]) w1 hw1 he) u hu
    refine mem_insertVar_of_mem v (vsUnion vs b) u hrec ?_
    intro hl
    rcases mem_vsUnion_elim vs b u hrec with h1 | h1
    · have := (List.pairwise_cons.mp ha).1 u h1
      omega
    · exact (hcompat v (by simp) u h1 (by omega)).symm

theorem insertVar_sorted (v : Var) (ws : VarSet) (hs : VSSorted ws) :
    VSSorted (insertVar v ws) := by
  induction ws with
  | nil => simp [insertVar, VSSorted]
  | cons w t ih =>
    rw [insertVar]
    by_cases h1 : v.label < w.label
    · rw [if_pos h1]
      refine List.pairwise_cons.mpr ⟨?_, hs⟩
      intro u hu
      rcases List.mem_cons.mp hu with h | h
      · subst h; exact h1
      · have := (List.pairwise_cons.mp hs).1 u h
        omega
    · rw [if_neg h1]
      by_cases h2 : w.label < v.label
      · rw [if_pos h2]
        have hs' := List.pairwise_cons.mp hs
        refine List.pairwise_cons.mpr ⟨?_, ih hs'.2⟩
        intro u hu
        rcases mem_insertVar_elim v t u hu with h | h
        · subst h; exact h2
        · exact hs'.1 u h
      · rw [if_neg h2]
        have hs' := List.pairwise_cons.mp hs
        refine List.pairwise_cons.mpr ⟨?_, hs'.2⟩
        intro u hu
        have := hs'.1 u hu
        omega

theorem vsUnion_sorted (a b : VarSet) (ha : VSSorted a) (hb : VSSorted b) :
    VSSorted (vsUnion a b) := by
  induction a with
  | nil => exact hb
  | cons v vs ih =>
    exact insertVar_sorted v _ (ih (List.pairwise_cons.mp ha).2)

theorem insertVar_mem_sorted (v : Var) (ws : VarSet) (hs : VSSorted ws)
    (hv : v ∈ ws) : insertVar v ws = ws := by
  induction ws with
  | nil => cases hv
  | cons w t ih =>
    rw [insertVar]
    have hs' := List.pairwise_cons.mp hs
    rcases List.mem_cons.mp hv with h | h
    · subst h
      rw [if_neg (by omega), if_neg (by omega)]
    · have hlt : w.label < v.label := hs'.1 v h
      rw [if_neg (by omega), if_pos hlt, ih hs'.2 h]

theorem vsUnion_subset_sorted (a b : VarSet) (hb : VSSorted b)
    (hab : ∀ u ∈ a, u ∈ b) : vsUnion a b = b := by
  induction a with
  | nil => rfl
  | cons v vs ih =>
    have hrec : vsUnion vs b = b := ih (fun u hu => hab u (by simp [hu]))
    show insertVar v (vsUnion vs b) = b
    rw [hrec]
    exact insertVar_mem_sorted v b hb (hab v (by simp))

theorem vsUnion_self (a : VarSet) (ha : VSSorted a) : vsUnion a a = a :=
  vsUnion_subset_sorted a a ha (fun u hu => hu)

/-- TFactor::operator* (factor.h lines 421-437): on equal VarSets the value
vectors are multiplied elementwise; otherwise the result lives on the union
VarSet and entry i is the product of the operand entries found through the
two index tables. -/
def fmul {α : Type} [LinearOrderedField α] (f g : TFactor α) : TFactor α :=
  if f.vs = g.vs then ⟨f.vs, List.zipWith (fun a b => a * b) f.p g.p⟩
  else
    let u := vsUnion f.vs g.vs
    ⟨u, (List.range (nrStates u)).map (fun i =>
        f.p.getD ((IndexFor f.vs u).getD i 0) 0 * g.p.getD ((IndexFor g.vs u).getD i 0) 0)⟩

theorem getD_zipWith_mul {α : Type} [LinearOrderedField α] (a b : List α) (k : ℕ)
    (ha : k < a.length) (hb : k < b.length) :
    (List.zipWith (fun x y => x * y) a b).getD k 0 = a.getD k 0 * b.getD k 0 := by
  have hz : k < (List.zipWith (fun x y : α => x * y) a b).length := by
    rw [List.length_zipWith]; omega
  rw [List.getD_eq_getElem _ _ hz, List.getD_eq_getElem _ _ ha, List.getD_eq_getElem _ _ hb]
  exact List.getElem_zipWith

/-- C4: the generalized factor product f * g has the union VarSet, and its
value at the linear encoding of any joint state x of the union is the value
of f at the restriction of x to f.vs times the value of g at the restriction
of x to g.vs.  (Restriction is implicit: calcState only consults the
variables of its VarSet.)  The compatibility hypothesis states that the two
factors agree on the variables behind shared labels, as they do inside one
factor graph. -/
theorem C4_fmul_spec {α : Type} [LinearOrderedField α] (f g : TFactor α) (x : Var → ℕ)
    (hf : FactorWF f) (hg : FactorWF g)
    (hcompat : ∀ v ∈ f.vs, ∀ w ∈ g.vs, v.label = w.label → v = w)
    (hx : ValidState (vsUnion f.vs g.vs) x) :
    (fmul f g).vs = vsUnion f.vs g.vs ∧
    (fmul f g).p.getD (calcState (vsUnion f.vs g.vs) x) 0
      = f.p.getD (calcState f.vs x) 0 * g.p.getD (calcState g.vs x) 0 := by
  by_cases heq : f.vs = g.vs
  · have hu : vsUnion f.vs g.vs = f.vs := by rw [heq, vsUnion_self _ hg.1]
    rw [fmul, if_pos heq]
    constructor
    · exact hu.symm
    · rw [hu]
      have hxf : ValidState f.vs x := by
        intro v hv
        exact hx v (by rw [hu]; exact hv)
      have hk : calcState f.vs x < nrStates f.vs := calcState_lt _ _ hxf
      have h1 : calcState f.vs x < f.p.length := by rw [hf.2.2]; exact hk
      have h2 : calcState f.vs x < g.p.length := by
        rw [hg.2.2, ← heq]; exact hk
      have hcg : calcState g.vs x = calcState f.vs x := by rw [heq]
      rw [hcg, getD_zipWith_mul _ _ _ h1 h2]
  · rw [fmul, if_neg heq]
    refine ⟨rfl, ?_⟩
    have husort : VSSorted (vsUnion f.vs g.vs) := vsUnion_sorted _ _ hf.1 hg.1
    have hK : calcState (vsUnion f.vs g.vs) x < nrStates (vsUnion f.vs g.vs) :=
      calcState_lt _ _ hx
    have hlen : calcState (vsUnion f.vs g.vs) x <
        ((List.range (nrStates (vsUnion f.vs g.vs))).map (fun i =>
          f.p.getD ((IndexFor f.vs (vsUnion f.vs g.vs)).getD i 0) 0 *
          g.p.getD ((IndexFor g.vs (vsUnion f.vs g.vs)).getD i 0) 0)).length := by
      simpa using hK
    rw [List.getD_eq_getElem _ _ hlen]
    rw [List.getElem_map]
    rw [List.getElem_range]
    rw [IndexFor_spec f.vs _ x husort (subset_vsUnion_left _ _ hf.1 hcompat) hx]
    rw [IndexFor_spec g.vs _ x husort (subset_vsUnion_right _ _ hf.1 hcompat) hx]

/-- Concrete data for the C4 witness: two single-variable factors over
distinct binary variables. -/
def fW : TFactor ℚ := ⟨[⟨0, 2⟩], [1, 2]⟩

/-- Second concrete factor for the C4 witness. -/
def gW : TFactor ℚ := ⟨[⟨1, 2⟩], [3, 4]⟩

/-- Concrete joint state for the C4 witness. -/
def xW : Var → ℕ := fun v => if v.label = 0 then 1 else 0

theorem C4_fmul_spec_witness :
    (fmul fW gW).vs = vsUnion fW.vs gW.vs ∧
    (fmul fW gW).p.getD (calcState (vsUnion fW.vs gW.vs) xW) 0
      = fW.p.getD (calcState fW.vs xW) 0 * gW.p.getD (calcState gW.vs xW) 0 :=
  C4_fmul_spec fW gW xW (by decide) (by decide) (by decide) (by decide)

/-- Modelled from the spec: VarSet intersection (operator& of dai/varset.h,
whose source is not given): the elements of the first set that also occur in
the second, in order. -/
def vsInter (a b : VarSet) : VarSet := a.filter (fun v => decide (v ∈ b))

/-- The accumulation loop shared by TFactor::marginal and the message
marginalization of bp.cpp: each value is added into the bin named by the
index table entry travelling alongside it. -/
def accumulate {α : Type} [LinearOrderedField α] (pairs : List (α × ℕ))
    (start : List α) : List α :=
  pairs.foldl (fun m vk => m.set vk.2 (m.getD vk.2 0 + vk.1)) start

/-- TFactor::marginal (factor.h lines 405-418): result VarSet is ns ∩ vs;
the values are summed into bins via IndexFor(ns ∩ vs, vs); the result is
PROB-normalized when normed is true. -/
def marginal {α : Type} [LinearOrderedField α] (f : TFactor α) (ns : VarSet)
    (normed : Bool) : TFactor α :=
  let rns := vsInter ns f.vs
  let acc := accumulate (f.p.zip (IndexFor rns f.vs)) (List.replicate (nrStates rns) 0)
  ⟨rns, if normed then normPROB acc else acc⟩

theorem accumulate_zero_single {α : Type} [LinearOrderedField α]
    (l : List (α × ℕ)) (h : ∀ e ∈ l, e.2 = 0) (s : α) :
    accumulate l [s] = [s + (l.map Prod.fst).sum] := by
  induction l generalizing s with
  | nil => simp [accumulate]
  | cons e t ih =>
    have he : e.2 = 0 := h e (by simp)
    have step : ([s].set e.2 (([s].getD e.2 0) + e.1)) = [s + e.1] := by
      rw [he]; rfl
    calc accumulate (e :: t) [s]
        = accumulate t ([s].set e.2 (([s].getD e.2 0) + e.1)) := rfl
      _ = accumulate t [s + e.1] := by rw [step]
      _ = [s + e.1 + (t.map Prod.fst).sum] := ih (fun e2 h2 => h e2 (by simp [h2])) _
      _ = [s + ((e :: t).map Prod.fst).sum] := by
            simp only [List.map_cons, List.sum_cons]
            rw [add_assoc]

theorem IndexFor_empty_inner (outer : VarSet) :
    IndexFor [] outer = List.replicate (nrStates outer) 0 := by
  simp only [IndexFor, calcState]
  rw [List.map_const', List.length_range]

/-- C8: marginalizing a factor onto the empty VarSet yields the scalar
factor (empty VarSet, a single entry) holding the total sum of the values;
when normed is true and the total sum is strictly positive, the single
entry is 1. -/
theorem C8_marginal_empty {α : Type} [LinearOrderedField α] (f : TFactor α)
    (hlen : f.p.length = nrStates f.vs) :
    (marginal f [] false).vs = [] ∧
    (marginal f [] false).p = [totalSum f.p] ∧
    (0 < totalSum f.p → (marginal f [] true).p = [1]) := by
  have hinter : vsInter [] f.vs = [] := rfl
  have hzero : ∀ e ∈ f.p.zip (IndexFor ([] : VarSet) f.vs), e.2 = 0 := by
    intro e he
    have := (List.of_mem_zip he).2
    rw [IndexFor_empty_inner] at this
    exact List.eq_of_mem_replicate this
  have hfst : (f.p.zip (IndexFor ([] : VarSet) f.vs)).map Prod.fst = f.p := by
    apply List.map_fst_zip
    rw [IndexFor_length, hlen]
  have hacc : accumulate (f.p.zip (IndexFor ([] : VarSet) f.vs))
      (List.replicate (nrStates ([] : VarSet)) 0) = [totalSum f.p] := by
    have h1 : List.replicate (nrStates ([] : VarSet)) (0 : α) = [0] := rfl
    rw [h1, accumulate_zero_single _ hzero, hfst]
    simp [totalSum]
  have hfalse : (marginal f [] false).p
      = accumulate (f.p.zip (IndexFor ([] : VarSet) f.vs))
          (List.replicate (nrStates ([] : VarSet)) 0) := rfl
  have htrue : (marginal f [] true).p
      = normPROB (accumulate (f.p.zip (IndexFor ([] : VarSet) f.vs))
          (List.replicate (nrStates ([] : VarSet)) 0)) := rfl
  refine ⟨rfl, ?_, ?_⟩
  · rw [hfalse, hacc]
  · intro hpos
    rw [htrue, hacc]
    simp only [normPROB, totalSum, List.map_cons, List.map_nil, List.sum_cons,
      List.sum_nil, add_zero]
    rw [div_self (by exact ne_of_gt hpos)]

/-- Concrete factor for the C8 witness. -/
def fW8 : TFactor ℚ := ⟨[⟨0, 2⟩], [1, 2]⟩

theorem C8_marginal_empty_witness :
    (marginal fW8 [] false).vs = [] ∧
    (marginal fW8 [] false).p = [totalSum fW8.p] ∧
    (0 < totalSum fW8.p → (marginal fW8 [] true).p = [1]) :=
  C8_marginal_empty fW8 (by decide)

/-- The residual of edge e = (i, sI) read from the residual table, mirroring
BP::residual(i, _I).  Out-of-bounds reads yield the default 0 (the checked
variant below models them as errors). -/
def resAt {α : Type} [LinearOrderedField α] (r : List (List α)) (e : ℕ × ℕ) : α :=
  (r.getD e.1 []).getD e.2 0

/-- All edges (j, slot) of the residual table in scan order: j ascending,
slot ascending — exactly the order of the loops of BP::findMaxResidual. -/
def allEdges {α : Type} (r : List (List α)) : List (ℕ × ℕ) :=
  (List.range r.length).flatMap
    (fun j => (List.range ((r.getD j []).length)).map (fun s => (j, s)))

/-- One comparison of the scan of BP::findMaxResidual: the candidate e
replaces the best edge so far only when its residual is strictly larger. -/
def scanStep {α : Type} [LinearOrderedField α] (r : List (List α))
    (best e : ℕ × ℕ) : ℕ × ℕ :=
  if resAt r e > resAt r best then e else best

/-- BP::findMaxResidual (bp.cpp lines 104-115): start from edge (0, 0) and
its residual, scan every edge in order, keep the first strict improvement. -/
def findMaxResidual {α : Type} [LinearOrderedField α] (r : List (List α)) : ℕ × ℕ :=
  (allEdges r).foldl (scanStep r) (0, 0)

/-- BP::findMaxResidual with the initial unconditional read of
residual(0, 0) made explicit: when the table has no row 0 or row 0 is empty
that read is out of bounds and the scan fails (models the memory error). -/
def findMaxResidualChecked {α : Type} [LinearOrderedField α]
    (r : List (List α)) : Option (ℕ × ℕ) :=
  match r.head? with
  | none => none
  | some row0 =>
    match row0.head? with
    | none => none
    | some _ => some ((allEdges r).foldl (scanStep r) (0, 0))

/-- Lexicographic order on edges: lower variable index first, then lower
local neighbor slot. -/
def lexLe (a b : ℕ × ℕ) : Prop := a.1 < b.1 ∨ (a.1 = b.1 ∧ a.2 ≤ b.2)

/-- Strict lexicographic order on edges. -/
def lexLt (a b : ℕ × ℕ) : Prop := a.1 < b.1 ∨ (a.1 = b.1 ∧ a.2 < b.2)

theorem mem_allEdges {α : Type} [LinearOrderedField α] (r : List (List α))
    (e : ℕ × ℕ) : e ∈ allEdges r ↔ e.1 < r.length ∧ e.2 < (r.getD e.1 []).length := by
  constructor
  · intro he
    obtain ⟨j, hj, hmem⟩ := List.mem_flatMap.mp he
    obtain ⟨s, hs, hse⟩ := List.mem_map.mp hmem
    have hj' := List.mem_range.mp hj
    have hs' := List.mem_range.mp hs
    cases hse
    exact ⟨hj', hs'⟩
  · intro ⟨h1, h2⟩
    refine List.mem_flatMap.mpr ⟨e.1, List.mem_range.mpr h1, ?_⟩
    exact List.mem_map.mpr ⟨e.2, List.mem_range.mpr h2, rfl⟩

theorem scan_spec {α : Type} [LinearOrderedField α] (r : List (List α))
    (l : List (ℕ × ℕ)) (b : ℕ × ℕ) :
    resAt r b ≤ resAt r (l.foldl (scanStep r) b) ∧
    (∀ e ∈ l, resAt r e ≤ resAt r (l.foldl (scanStep r) b)) ∧
    (l.foldl (scanStep r) b = b ∨
      ∃ l1 l2, l = l1 ++ (l.foldl (scanStep r) b) :: l2 ∧
        resAt r b < resAt r (l.foldl (scanStep r) b) ∧
        ∀ e ∈ l1, resAt r e < resAt r (l.foldl (scanStep r) b)) := by
  induction l generalizing b with
  | nil => exact ⟨le_refl _, (fun e he => absurd he (List.not_mem_nil e)), Or.inl rfl⟩
  | cons e t ih =>
    by_cases h : resAt r e > resAt r b
    · have hstep : scanStep r b e = e := by rw [scanStep, if_pos h]
      have hfold : (e :: t).foldl (scanStep r) b = t.foldl (scanStep r) e := by
        rw [List.foldl_cons, hstep]
      obtain ⟨ih1, ih2, ih3⟩ := ih e
      rw [hfold]
      refine ⟨le_trans (le_of_lt h) ih1, ?_, ?_⟩
      · intro x hx
        rcases List.mem_cons.mp hx with h1 | h1
        · subst h1; exact ih1
        · exact ih2 x h1
      · rcases ih3 with h1 | h1
        · right
          refine ⟨[], t, ?_, ?_, ?_⟩
          · rw [h1]
            rfl
          · rw [h1]
            exact h
          · intro x hx
            cases hx
        · obtain ⟨t1, t2, ht, hlt, hall⟩ := h1
          right
          refine ⟨e :: t1, t2, by rw [List.cons_append, ← ht], lt_trans h hlt, ?_⟩
          intro x hx
          rcases List.mem_cons.mp hx with h2 | h2
          · subst h2; exact hlt
          · exact hall x h2
    · have hstep : scanStep r b e = b := by rw [scanStep, if_neg h]
      have hfold : (e :: t).foldl (scanStep r) b = t.foldl (scanStep r) b := by
        rw [List.foldl_cons, hstep]
      obtain ⟨ih1, ih2, ih3⟩ := ih b
      rw [hfold]
      refine ⟨ih1, ?_, ?_⟩
      · intro x hx
        rcases List.mem_cons.mp hx with h1 | h1
        · subst h1; exact le_trans (le_of_not_lt h) ih1
        · exact ih2 x h1
      · rcases ih3 with h1 | h1
        · exact Or.inl h1
        · obtain ⟨t1, t2, ht, hlt, hall⟩ := h1
          right
          refine ⟨e :: t1, t2, by rw [List.cons_append, ← ht], hlt, ?_⟩
          intro x hx
          rcases List.mem_cons.mp hx with h2 | h2
          · subst h2; exact lt_of_le_of_lt (le_of_not_lt h) hlt
          · exact hall x h2

theorem pairwise_allEdges {α : Type} [LinearOrderedField α] (r : List (List α)) :
    List.Pairwise lexLt (allEdges r) := by
  have heq : allEdges r = ((List.range r.length).map
      (fun j => (List.range ((r.getD j []).length)).map (fun s => (j, s)))).flatten := rfl
  rw [heq, List.pairwise_flatten]
  constructor
  · intro l hl
    obtain ⟨j, hj, hjl⟩ := List.mem_map.mp hl
    subst hjl
    refine List.Pairwise.map _ ?_ (List.pairwise_lt_range _)
    intro s1 s2 hs
    exact Or.inr ⟨rfl, hs⟩
  · refine List.Pairwise.map _ ?_ (List.pairwise_lt_range _)
    intro j1 j2 hj x hx y hy
    obtain ⟨s1, hs1, hx1⟩ := List.mem_map.mp hx
    obtain ⟨s2, hs2, hy1⟩ := List.mem_map.mp hy
    subst hx1
    subst hy1
    exact Or.inl hj

/-- C2: the edge returned by BP::findMaxResidual (the selection step of the
SEQMAX schedule, called once per update by BP::run) is a valid edge whose
residual is the global maximum over all edges, and among the edges achieving
that maximum it is the one with lowest variable index i and then lowest
local neighbor slot.  The precondition is the one findMaxResidual itself
requires (see C9): the table has a row 0 with at least one entry. -/
theorem C2_findMaxResidual_max (r : List (List ℚ)) (m : ℕ × ℕ)
    (hr : 0 < r.length) (hr0 : 0 < (r.getD 0 []).length)
    (hm : findMaxResidual r = m) :
    (m.1 < r.length ∧ m.2 < (r.getD m.1 []).length) ∧
    (∀ e : ℕ × ℕ, e.1 < r.length → e.2 < (r.getD e.1 []).length →
      resAt r e ≤ resAt r m) ∧
    (∀ e : ℕ × ℕ, e.1 < r.length → e.2 < (r.getD e.1 []).length →
      resAt r e = resAt r m → lexLe m e) := by
  have hm2 : (allEdges r).foldl (scanStep r) (0, 0) = m := hm
  obtain ⟨h1, h2, h3⟩ := scan_spec r (allEdges r) (0, 0)
  rw [hm2] at h1 h2 h3
  refine ⟨?_, ?_, ?_⟩
  · rcases h3 with hb | hb
    · rw [hb]
      exact ⟨hr, hr0⟩
    · obtain ⟨l1, l2, hsplit, _, _⟩ := hb
      have hmem : m ∈ allEdges r := by
        rw [hsplit]
        exact List.mem_append.mpr (Or.inr (by simp))
      exact (mem_allEdges r m).mp hmem
  · intro e he1 he2
    exact h2 e ((mem_allEdges r e).mpr ⟨he1, he2⟩)
  · intro e he1 he2 heq
    rcases h3 with hb | hb
    · rw [hb]
      rcases Nat.eq_zero_or_pos e.1 with h4 | h4
      · exact Or.inr ⟨h4.symm, Nat.zero_le _⟩
      · exact Or.inl h4
    · obtain ⟨l1, l2, hsplit, hblt, hall⟩ := hb
      have hemem : e ∈ allEdges r := (mem_allEdges r e).mpr ⟨he1, he2⟩
      rw [hsplit] at hemem
      rcases List.mem_append.mp hemem with hin | hin
      · have hx := hall e hin
        rw [heq] at hx
        exact absurd hx (lt_irrefl _)
      · rcases List.mem_cons.mp hin with hin2 | hin2
        · rw [hin2]
          exact Or.inr ⟨rfl, le_refl _⟩
        · have hpw := pairwise_allEdges r
          rw [hsplit] at hpw
          have hcons := (List.pairwise_append.mp hpw).2.1
          have hlt := (List.pairwise_cons.mp hcons).1 e hin2
          rcases hlt with h4 | h4
          · exact Or.inl h4
          · exact Or.inr ⟨h4.1, le_of_lt h4.2⟩

/-- Concrete residual table for the C2 witness. -/
def rW : List (List ℚ) := [[1, 3], [3, 2]]

theorem C2_findMaxResidual_max_witness :
    ((0, 1) : ℕ × ℕ).1 < rW.length ∧ ((0, 1) : ℕ × ℕ).2 < (rW.getD 0 []).length ∧
    (∀ e : ℕ × ℕ, e.1 < rW.length → e.2 < (rW.getD e.1 []).length →
      resAt rW e ≤ resAt rW (0, 1)) ∧
    (∀ e : ℕ × ℕ, e.1 < rW.length → e.2 < (rW.getD e.1 []).length →
      resAt rW e = resAt rW (0, 1) → lexLe (0, 1) e) := by
  have h := C2_findMaxResidual_max rW (0, 1) (by decide) (by decide) (by decide)
  exact ⟨h.1.1, h.1.2, h.2.1, h.2.2⟩

/-- C9: findMaxResidual reads residual(0, 0) before scanning, so the checked
variant succeeds exactly when the graph has a variable 0 with at least one
neighboring factor; under that precondition it returns the same edge as the
total model, and every read performed by the scan itself is in bounds. -/
theorem C9_findMaxResidual_safety (r : List (List ℚ)) :
    (0 < r.length ∧ 0 < (r.getD 0 []).length →
      findMaxResidualChecked r = some (findMaxResidual r)) ∧
    (¬(0 < r.length ∧ 0 < (r.getD 0 []).length) →
      findMaxResidualChecked r = none) ∧
    (∀ e ∈ allEdges r, e.1 < r.length ∧ e.2 < (r.getD e.1 []).length) := by
  refine ⟨?_, ?_, fun e he => (mem_allEdges r e).mp he⟩
  · intro ⟨h1, h2⟩
    rcases r with _ | ⟨row0, rest⟩
    · simp at h1
    · rcases row0 with _ | ⟨x, xs⟩
      · simp at h2
      · rfl
  · intro hneg
    rcases r with _ | ⟨row0, rest⟩
    · rfl
    · rcases row0 with _ | ⟨x, xs⟩
      · rfl
      · exact absurd ⟨by simp, by simp⟩ hneg

theorem C9_findMaxResidual_safety_witness :
    findMaxResidualChecked rW = some (findMaxResidual rW) ∧
    findMaxResidualChecked ([] : List (List ℚ)) = none :=
  ⟨(C9_findMaxResidual_safety rW).1 (by decide),
   (C9_findMaxResidual_safety []).2.1 (by decide)⟩

theorem getD_set_ne {β : Type} (t : List β) (k j : ℕ) (x d : β) (h : k ≠ j) :
    (t.set k x).getD j d = t.getD j d := by
  simp [List.getD, List.getElem?_set_ne h]

theorem getD_set_eq {β : Type} (t : List β) (k : ℕ) (x d : β) (h : k < t.length) :
    (t.set k x).getD k d = x := by
  simp [List.getD, List.getElem?_set_self, h]

/-- The factor-graph view the BP engine is constructed against: variables,
factors, and the two neighbor lists (nbV(i) = indices of factors adjacent to
variable i, nbF(I) = indices of variables adjacent to factor I). -/
structure BPGraph (α : Type) where
  vars : List Var
  factors : List (TFactor α)
  nbV : List (List ℕ)
  nbF : List (List ℕ)
deriving DecidableEq

/-- Number of variables of the graph view. -/
def nrVars {α : Type} (g : BPGraph α) : ℕ := g.vars.length

/-- Number of factors of the graph view. -/
def nrFactors {α : Type} (g : BPGraph α) : ℕ := g.factors.length

/-- var(i) of the graph view. -/
def varG {α : Type} (g : BPGraph α) (i : ℕ) : Var := g.vars.getD i ⟨0, 0⟩

/-- factor(I) of the graph view. -/
def factorG {α : Type} (g : BPGraph α) (I : ℕ) : TFactor α := g.factors.getD I ⟨[], []⟩

/-- nbV(i) of the graph view. -/
def nbVg {α : Type} (g : BPGraph α) (i : ℕ) : List ℕ := g.nbV.getD i []

/-- nbF(I) of the graph view. -/
def nbFg {α : Type} (g : BPGraph α) (I : ℕ) : List ℕ := g.nbF.getD I []

/-- findVar of the graph view: index of a variable in the variable list. -/
def findVar {α : Type} (g : BPGraph α) (v : Var) : ℕ :=
  g.vars.findIdx (fun w => decide (w = v))

/-- The mutable per-edge state of the BP engine: message[i][sI] is the live
message sent to variable i by the factor in slot sI of its neighbor list,
newMessage[i][sI] the staged next message.  Mirrors the EdgeProp tables of
bp.cpp. -/
structure BPState (α : Type) where
  message : List (List (TProb α))
  newMessage : List (List (TProb α))
deriving DecidableEq

/-- message(i, _I) of bp.cpp. -/
def messageAt {α : Type} (st : BPState α) (i sI : ℕ) : TProb α :=
  (st.message.getD i []).getD sI []

/-- newMessage(i, _I) of bp.cpp. -/
def newMessageAt {α : Type} (st : BPState α) (i sI : ℕ) : TProb α :=
  (st.newMessage.getD i []).getD sI []

/-- The neutral message element: 0 in log-domain mode, 1 in linear mode. -/
def neutral {α : Type} [LinearOrderedField α] (ld : Bool) : α := if ld then 0 else 1

/-- Refill every entry of every message of a table with the constant c,
keeping all lengths. -/
def fillTable {α : Type} (c : α) (t : List (List (TProb α))) : List (List (TProb α)) :=
  t.map (fun row => row.map (fun m => m.map (fun _ => c)))

/-- BP::init() (bp.cpp lines 88-101): both the live message and the staged
newMessage of every edge are filled with the neutral element. -/
def initBP {α : Type} [LinearOrderedField α] (ld : Bool) (st : BPState α) : BPState α :=
  ⟨fillTable (neutral ld) st.message, fillTable (neutral ld) st.newMessage⟩

/-- BP::init(const VarSet &ns) (bp.cpp lines 411-417): for each variable n
in ns the live message of every incident edge is refilled with the neutral
element.  The staged newMessage table is not touched by this overload. -/
def initBPVS {α : Type} [LinearOrderedField α] (ld : Bool) (g : BPGraph α)
    (ns : VarSet) (st : BPState α) : BPState α :=
  ⟨ns.foldl (fun t n =>
      let ni := findVar g n
      t.set ni ((t.getD ni []).map (fun m => m.map (fun _ => neutral ld)))) st.message,
   st.newMessage⟩

/-- Every entry of every message of the table equals c. -/
def allEntriesEq {α : Type} (t : List (List (TProb α))) (c : α) : Prop :=
  ∀ row ∈ t, ∀ m ∈ row, ∀ x ∈ m, x = c

/-- Every entry of every message of one row equals c. -/
def rowEntriesEq {α : Type} (row : List (TProb α)) (c : α) : Prop :=
  ∀ m ∈ row, ∀ x ∈ m, x = c

instance {α : Type} [DecidableEq α] (t : List (List (TProb α))) (c : α) :
    Decidable (allEntriesEq t c) := by
  unfold allEntriesEq; infer_instance

instance {α : Type} [DecidableEq α] (row : List (TProb α)) (c : α) :
    Decidable (rowEntriesEq row c) := by
  unfold rowEntriesEq; infer_instance

/-- Concrete graph for the C5 counterexample and witness: one variable with
one state, one factor attached to it. -/
def gW5 : BPGraph ℚ := ⟨[⟨0, 1⟩], [⟨[⟨0, 1⟩], [1]⟩], [[0]], [[0]]⟩

/-- Concrete state for the C5 counterexample and witness. -/
def stW5 : BPState ℚ := ⟨[[[5]]], [[[7]]]⟩

/-- C5 counterexample: after init(ns) with ns = {variable 0}, the staged
newMessage of the (unique) edge incident to variable 0 still holds 7, not
the neutral element 1 — init(VarSet) only refills the live messages. -/
theorem C5_counterexample_initVS_newMessage :
    (initBPVS false gW5 [⟨0, 1⟩] stW5).newMessage = [[[7]]] ∧
    ((7 : ℚ) ≠ 1) ∧ neutral (α := ℚ) false = 1 ∧
    findVar gW5 ⟨0, 1⟩ = 0 ∧ (nbVg gW5 0).length = 1 ∧
    (initBPVS false gW5 [⟨0, 1⟩] stW5).message = [[[1]]] := by decide

theorem fillTable_allEntriesEq {α : Type} (c : α) (t : List (List (TProb α))) :
    allEntriesEq (fillTable c t) c := by
  intro row hrow m hm x hx
  obtain ⟨row0, hrow0, hrow1⟩ := List.mem_map.mp hrow
  subst hrow1
  obtain ⟨m0, hm0, hm1⟩ := List.mem_map.mp hm
  subst hm1
  obtain ⟨x0, hx0, hx1⟩ := List.mem_map.mp hx
  exact hx1.symm

theorem rowEntriesEq_fillRow {α : Type} (c : α) (row : List (TProb α)) :
    rowEntriesEq (row.map (fun m => m.map (fun _ => c))) c := by
  intro m hm x hx
  obtain ⟨m0, hm0, hm1⟩ := List.mem_map.mp hm
  subst hm1
  obtain ⟨x0, hx0, hx1⟩ := List.mem_map.mp hx
  exact hx1.symm

theorem initVS_fold_preserves {α : Type} [LinearOrderedField α] (ld : Bool)
    (g : BPGraph α) (l : List Var) (t : List (List (TProb α))) (j : ℕ)
    (h : rowEntriesEq (t.getD j []) (neutral ld)) :
    rowEntriesEq ((l.foldl (fun t n =>
        let ni := findVar g n
        t.set ni ((t.getD ni []).map (fun m => m.map (fun _ => neutral ld)))) t).getD j [])
      (neutral ld) := by
  induction l generalizing t with
  | nil => exact h
  | cons n tl ih =>
    refine ih _ ?_
    by_cases hj : findVar g n = j
    · subst hj
      by_cases hlt : findVar g n < t.length
      · rw [getD_set_eq _ _ _ _ hlt]
        exact rowEntriesEq_fillRow _ _
      · rw [List.getD_eq_default]
        · intro m hm; cases hm
        · rw [List.length_set]; omega
    · rw [getD_set_ne _ _ _ _ _ hj]
      exact h

theorem initVS_fold_fills {α : Type} [LinearOrderedField α] (ld : Bool)
    (g : BPGraph α) (l : List Var) (t : List (List (TProb α))) :
    ∀ n ∈ l, rowEntriesEq ((l.foldl (fun t n =>
        let ni := findVar g n
        t.set ni ((t.getD ni []).map (fun m => m.map (fun _ => neutral ld)))) t).getD
          (findVar g n) []) (neutral ld) := by
  induction l generalizing t with
  | nil => intro n hn; cases hn
  | cons hd tl ih =>
    intro n hn
    rcases List.mem_cons.mp hn with h1 | h1
    · subst h1
      refine initVS_fold_preserves ld g tl _ _ ?_
      by_cases hlt : findVar g n < t.length
      · rw [getD_set_eq _ _ _ _ hlt]
        exact rowEntriesEq_fillRow _ _
      · rw [List.getD_eq_default]
        · intro m hm; cases hm
        · rw [List.length_set]; omega
    · exact ih _ n h1

/-- C5 (amended): init() fills both the live message and the staged
newMessage of every edge with the neutral element (1 linear, 0 log-domain);
init(ns) fills only the live messages of the edges incident to variables of
ns with the neutral element and leaves the whole newMessage table unchanged. -/
theorem C5_init_resets {α : Type} [LinearOrderedField α] (ld : Bool)
    (g : BPGraph α) (ns : VarSet) (st : BPState α) :
    allEntriesEq (initBP ld st).message (neutral ld) ∧
    allEntriesEq (initBP ld st).newMessage (neutral ld) ∧
    (initBPVS ld g ns st).newMessage = st.newMessage ∧
    (∀ n ∈ ns, rowEntriesEq ((initBPVS ld g ns st).message.getD (findVar g n) [])
      (neutral ld)) := by
  refine ⟨fillTable_allEntriesEq _ _, fillTable_allEntriesEq _ _, rfl, ?_⟩
  intro n hn
  exact initVS_fold_fills ld g ns st.message n hn

theorem C5_init_resets_witness :
    allEntriesEq (initBP false stW5).message (neutral false) ∧
    allEntriesEq (initBP false stW5).newMessage (neutral false) ∧
    (initBPVS false gW5 [⟨0, 1⟩] stW5).newMessage = stW5.newMessage ∧
    rowEntriesEq ((initBPVS false gW5 [⟨0, 1⟩] stW5).message.getD
      (findVar gW5 ⟨0, 1⟩) []) (neutral false) := by
  have h := C5_init_resets (α := ℚ) false gW5 [⟨0, 1⟩] stW5
  exact ⟨h.1, h.2.1, h.2.2.1, h.2.2.2 ⟨0, 1⟩ (by decide)⟩

/-- The maximum entry of a value vector (std::max_element semantics, as used
by the log-domain renormalization of bp.cpp); 0 for the empty vector. -/
def maxEl {α : Type} [LinearOrderedField α] : TProb α → α
  | [] => 0
  | x :: xs => xs.foldl (fun a b => max a b) x

/-- The inner product-of-incoming-messages loop shared by calcNewMessage and
beliefF: starting from the identity vector of length states(var j), combine
(add in log-domain, multiply in linear mode) the message of every slot of
nbV(j) whose factor differs from I.  The table to read is passed in
(message for calcNewMessage, newMessage for beliefF). -/
def prodJ {α : Type} [LinearOrderedField α] (ld : Bool) (g : BPGraph α)
    (msgs : List (List (TProb α))) (j I : ℕ) : TProb α :=
  ((nbVg g j).enum).foldl (fun acc sJ =>
      if sJ.2 = I then acc
      else if ld then List.zipWith (fun a b => a + b) acc ((msgs.getD j []).getD sJ.1 [])
      else List.zipWith (fun a b => a * b) acc ((msgs.getD j []).getD sJ.1 []))
    (List.replicate (varG g j).states (if ld then 0 else 1))

/-- One step of the outer loop of calcNewMessage / beliefF: walk prod
linearly and combine entry r with prod_j[ind[r]]. -/
def combineRow {α : Type} [LinearOrderedField α] (ld : Bool) (pr : TProb α)
    (ind : List ℕ) (pj : TProb α) : TProb α :=
  List.zipWith (fun v k => if ld then v + pj.getD k 0 else v * pj.getD k 0) pr ind

/-- The log-domain renormalization step of bp.cpp (prod -= prod.max();
prod.takeExp()): in log-domain mode subtract the maximum entry and apply
exp; in linear mode the vector passes through unchanged. -/
def renorm {α : Type} [LinearOrderedField α] (ex : α → α) (ld : Bool)
    (pr : TProb α) : TProb α :=
  if ld then pr.map (fun v => ex (v - maxEl pr)) else pr

/-- The product loop of BP::calcNewMessage (bp.cpp lines 133-161): start
from the value vector of factor I (its elementwise log in log-domain mode)
and, for every neighboring variable j other than i, fold in the product of
the messages incoming to j through the index table of the edge (j, I). -/
def msgProd {α : Type} [LinearOrderedField α] (lg : α → α) (ld : Bool)
    (g : BPGraph α) (msgs : List (List (TProb α))) (i I : ℕ) : TProb α :=
  (nbFg g I).foldl (fun pr j =>
      if j = i then pr
      else combineRow ld pr (IndexFor [varG g j] (factorG g I).vs)
             (prodJ ld g msgs j I))
    (if ld then (factorG g I).p.map lg else (factorG g I).p)

/-- BP::calcNewMessage (bp.cpp lines 118-180), as the value it stores into
newMessage(i, _I): build the product (msgProd), renormalize it by the
subtract-max/exp trick in log-domain mode, marginalize onto var(i) through
IndexFor(var(i), factor(I)), PROB-normalize, and store (the log of) the
result. -/
def calcNewMessage {α : Type} [LinearOrderedField α] (lg ex : α → α) (ld : Bool)
    (g : BPGraph α) (st : BPState α) (i sI : ℕ) : TProb α :=
  let I := (nbVg g i).getD sI 0
  let prod2 := renorm ex ld (msgProd lg ld g st.message i I)
  let marg := accumulate (prod2.zip (IndexFor [varG g i] (factorG g I).vs))
      (List.replicate (varG g i).states 0)
  if ld then (normPROB marg).map lg else normPROB marg

/-- The message-combination loop of BP::beliefV: combine the staged
newMessages of all edges of variable i (add in log-domain, multiply in
linear mode), starting from the identity vector. -/
def beliefVProd {α : Type} [LinearOrderedField α] (ld : Bool)
    (g : BPGraph α) (st : BPState α) (i : ℕ) : TProb α :=
  ((nbVg g i).enum).foldl (fun acc sJ =>
      if ld then List.zipWith (fun a b => a + b) acc (newMessageAt st i sJ.1)
      else List.zipWith (fun a b => a * b) acc (newMessageAt st i sJ.1))
    (List.replicate (varG g i).states (if ld then 0 else 1))

/-- BP::beliefV (bp.cpp lines 296-310): combine the staged newMessages of
all edges of variable i, renormalize through the subtract-max/exp trick in
log-domain mode, PROB-normalize and wrap as a factor over var(i). -/
def beliefV {α : Type} [LinearOrderedField α] (lg ex : α → α) (ld : Bool)
    (g : BPGraph α) (st : BPState α) (i : ℕ) : TFactor α :=
  ⟨[varG g i], normPROB (renorm ex ld (beliefVProd ld g st i))⟩

/-- BP::beliefF (bp.cpp lines 342-391): mirror of calcNewMessage reading the
staged newMessages, with no variable skipped and no marginalization; the
result is normalized over the factor's variables. -/
def beliefF {α : Type} [LinearOrderedField α] (lg ex : α → α) (ld : Bool)
    (g : BPGraph α) (st : BPState α) (I : ℕ) : TFactor α :=
  let prod := (nbFg g I).foldl (fun pr j =>
      combineRow ld pr (IndexFor [varG g j] (factorG g I).vs)
        (prodJ ld g st.newMessage j I))
    (if ld then (factorG g I).p.map lg else (factorG g I).p)
  ⟨(factorG g I).vs, normPROB (renorm ex ld prod)⟩

/-- The linear scan of BP::belief(const VarSet&): index of the first factor
whose VarSet contains ns. -/
def findSupersetFactor {α : Type} (g : BPGraph α) (ns : VarSet) : Option ℕ :=
  (List.range (nrFactors g)).find? (fun I => decide (∀ v ∈ ns, v ∈ (factorG g I).vs))

/-- BP::belief(const VarSet &ns) (bp.cpp lines 328-339): for a singleton ns
return beliefV of the variable (through findVar); otherwise marginalize
beliefF of the first factor whose variables contain ns onto ns; none models
the assert(I != nrFactors()) failure when no factor contains ns. -/
def belief {α : Type} [LinearOrderedField α] (lg ex : α → α) (ld : Bool)
    (g : BPGraph α) (st : BPState α) (ns : VarSet) : Option (TFactor α) :=
  if ns.length = 1 then some (beliefV lg ex ld g st (findVar g (ns.headD ⟨0, 0⟩)))
  else
    match findSupersetFactor g ns with
    | some I => some (marginal (beliefF lg ex ld g st I) ns true)
    | none => none

/-- BP::logZ (bp.cpp lines 394-401): accumulate (1 - deg(i)) * entropy of
beliefV(i) over the variables, then subtract KL_dist(beliefF(I), factor(I))
for every factor.  The entropy and KL_dist functions live in the external
probability layer (not among the given sources) and enter as parameters;
the Complex return type of the source carries a real value in healthy runs
and is modelled by the scalar itself. -/
def logZ {α : Type} [LinearOrderedField α] (lg ex : α → α) (ld : Bool)
    (entropy : TFactor α → α) (KLd : TFactor α → TFactor α → α)
    (g : BPGraph α) (st : BPState α) : α :=
  let s1 := (List.range (nrVars g)).foldl
      (fun acc i => acc + (1 - ((nbVg g i).length : α)) * entropy (beliefV lg ex ld g st i)) 0
  (List.range (nrFactors g)).foldl
      (fun acc I => acc - KLd (beliefF lg ex ld g st I) (factorG g I)) s1

theorem foldl_add_sum {α β : Type} [LinearOrderedField α] (f : β → α)
    (l : List β) (a : α) :
    l.foldl (fun acc x => acc + f x) a = a + (l.map f).sum := by
  induction l generalizing a with
  | nil => simp
  | cons hd tl ih =>
    rw [List.foldl_cons, ih, List.map_cons, List.sum_cons, add_assoc]

theorem foldl_sub_sum {α β : Type} [LinearOrderedField α] (f : β → α)
    (l : List β) (a : α) :
    l.foldl (fun acc x => acc - f x) a = a - (l.map f).sum := by
  induction l generalizing a with
  | nil => simp
  | cons hd tl ih =>
    rw [List.foldl_cons, ih, List.map_cons, List.sum_cons, sub_sub]

theorem sum_map_range {α : Type} [LinearOrderedField α] (n : ℕ) (f : ℕ → α) :
    ∑ i ∈ Finset.range n, f i = ((List.range n).map f).sum := by
  induction n with
  | zero => rfl
  | succ m ih =>
    rw [Finset.sum_range_succ, ih, List.range_succ, List.map_append, List.sum_append,
      List.map_cons, List.map_nil, List.sum_cons, List.sum_nil, add_zero]

/-- C3: logZ is the Bethe free energy: the sum over all variables i of
(1 - deg(i)) times the entropy of beliefV(i) minus the sum over all factors
I of the KL divergence from beliefF(I) to factor(I), where deg(i) is the
size of nbV(i). -/
theorem C3_logZ_bethe {α : Type} [LinearOrderedField α] (lg ex : α → α)
    (ld : Bool) (entropy : TFactor α → α) (KLd : TFactor α → TFactor α → α)
    (g : BPGraph α) (st : BPState α) :
    logZ lg ex ld entropy KLd g st =
      (∑ i ∈ Finset.range (nrVars g),
        (1 - ((nbVg g i).length : α)) * entropy (beliefV lg ex ld g st i)) -
      ∑ I ∈ Finset.range (nrFactors g),
        KLd (beliefF lg ex ld g st I) (factorG g I) := by
  show (List.range (nrFactors g)).foldl
      (fun acc I => acc - KLd (beliefF lg ex ld g st I) (factorG g I))
      ((List.range (nrVars g)).foldl
        (fun acc i => acc + (1 - ((nbVg g i).length : α)) * entropy (beliefV lg ex ld g st i)) 0)
      = _
  rw [foldl_sub_sum, foldl_add_sum, ← sum_map_range, ← sum_map_range, zero_add]

/-- C6: belief(ns) returns beliefV of the single variable when ns is a
singleton; otherwise it marginalizes beliefF of the first factor whose
VarSet contains ns onto ns (that factor is indeed a superset factor), and
fails when no factor's VarSet contains ns — and the scan fails exactly when
no factor with index below nrFactors contains ns. -/
theorem C6_belief_dispatch {α : Type} [LinearOrderedField α] (lg ex : α → α)
    (ld : Bool) (g : BPGraph α) (st : BPState α) (ns : VarSet) :
    (ns.length = 1 → belief lg ex ld g st ns
        = some (beliefV lg ex ld g st (findVar g (ns.headD ⟨0, 0⟩)))) ∧
    (ns.length ≠ 1 → ∀ I, findSupersetFactor g ns = some I →
        (∀ v ∈ ns, v ∈ (factorG g I).vs) ∧
        belief lg ex ld g st ns = some (marginal (beliefF lg ex ld g st I) ns true)) ∧
    (ns.length ≠ 1 → findSupersetFactor g ns = none →
        belief lg ex ld g st ns = none) ∧
    (findSupersetFactor g ns = none ↔
        ∀ I, I < nrFactors g → ¬(∀ v ∈ ns, v ∈ (factorG g I).vs)) := by
  refine ⟨?_, ?_, ?_, ?_⟩
  · intro h
    rw [belief, if_pos h]
  · intro h I hI
    constructor
    · have := List.find?_some hI
      exact of_decide_eq_true this
    · rw [belief, if_neg h, hI]
  · intro h h2
    rw [belief, if_neg h, h2]
  · rw [findSupersetFactor, List.find?_eq_none]
    constructor
    · intro h I hI
      have := h I (List.mem_range.mpr hI)
      simpa using this
    · intro h I hI
      have := h I (List.mem_range.mp hI)
      simpa using this

theorem C6_belief_dispatch_witness :
    belief (fun x : ℚ => x) (fun x => x) false gW5 stW5 [⟨0, 1⟩]
        = some (beliefV (fun x : ℚ => x) (fun x => x) false gW5 stW5
            (findVar gW5 (([⟨0, 1⟩] : VarSet).headD ⟨0, 0⟩))) ∧
    belief (fun x : ℚ => x) (fun x => x) false gW5 stW5 [⟨0, 1⟩, ⟨1, 1⟩] = none :=
  ⟨(C6_belief_dispatch _ _ false gW5 stW5 [⟨0, 1⟩]).1 (by decide),
   (C6_belief_dispatch _ _ false gW5 stW5 [⟨0, 1⟩, ⟨1, 1⟩]).2.2.1 (by decide) (by decide)⟩

theorem getD_map {β γ : Type} (f : β → γ) (l : List β) (j : ℕ) (d : β) :
    (l.map f).getD j (f d) = f (l.getD j d) := by
  by_cases h : j < l.length
  · rw [List.getD_eq_getElem _ _ (by simpa using h), List.getD_eq_getElem _ _ h,
      List.getElem_map]
  · rw [List.getD_eq_default _ _ (by simpa using Nat.le_of_not_lt h),
      List.getD_eq_default _ _ (Nat.le_of_not_lt h)]

theorem getD_map_d {β γ : Type} (f : β → γ) (l : List β) (j : ℕ) (d : β) (d2 : γ)
    (hd : f d = d2) : (l.map f).getD j d2 = f (l.getD j d) := by
  subst hd
  exact getD_map f l j d

/-- Reading an entry of the elementwise-log image of a message table yields
the log image of the entry of the original table. -/
theorem logTable_getD (msgs : List (List (TProb ℝ))) (j s : ℕ) :
    ((msgs.map (fun row => row.map (fun m => m.map Real.log))).getD j []).getD s []
      = ((msgs.getD j []).getD s []).map Real.log := by
  rw [getD_map_d (fun row => row.map (fun m => m.map Real.log)) msgs j [] [] rfl]
  rw [getD_map_d (fun m => m.map Real.log) _ s [] [] rfl]

theorem zipWith_mul_pos : ∀ (a b : List ℝ), (∀ x ∈ a, 0 < x) → (∀ x ∈ b, 0 < x) →
    ∀ x ∈ List.zipWith (fun u v => u * v) a b, 0 < x := by
  intro a
  induction a with
  | nil => intro b ha hb x hx; simp at hx
  | cons p ps ih =>
    intro b ha hb x hx
    cases b with
    | nil => simp at hx
    | cons q qs =>
      rw [List.zipWith_cons_cons] at hx
      rcases List.mem_cons.mp hx with h | h
      · subst h
        exact mul_pos (ha p (by simp)) (hb q (by simp))
      · exact ih qs (fun y hy => ha y (by simp [hy])) (fun y hy => hb y (by simp [hy])) x h

theorem zipWith_add_log : ∀ (a b : List ℝ), (∀ x ∈ a, 0 < x) → (∀ x ∈ b, 0 < x) →
    List.zipWith (fun u v => u + v) (a.map Real.log) (b.map Real.log)
      = (List.zipWith (fun u v => u * v) a b).map Real.log := by
  intro a
  induction a with
  | nil => intro b ha hb; simp
  | cons p ps ih =>
    intro b ha hb
    cases b with
    | nil => simp
    | cons q qs =>
      simp only [List.map_cons, List.zipWith_cons_cons]
      rw [Real.log_mul (ne_of_gt (ha p (by simp))) (ne_of_gt (hb q (by simp)))]
      rw [ih qs (fun y hy => ha y (by simp [hy])) (fun y hy => hb y (by simp [hy]))]

theorem zipWith_combine_log : ∀ (pr : List ℝ) (ind : List ℕ) (pj : List ℝ),
    (∀ x ∈ pr, 0 < x) → (∀ x ∈ pj, 0 < x) → (∀ k ∈ ind, k < pj.length) →
    List.zipWith (fun v k => v + (pj.map Real.log).getD k 0) (pr.map Real.log) ind
      = (List.zipWith (fun v k => v * pj.getD k 0) pr ind).map Real.log := by
  intro pr
  induction pr with
  | nil => intro ind pj _ _ _; simp
  | cons p ps ih =>
    intro ind pj hpr hpj hind
    cases ind with
    | nil => simp
    | cons k ks =>
      simp only [List.map_cons, List.zipWith_cons_cons]
      have hk : k < pj.length := hind k (by simp)
      have hpjk : 0 < pj.getD k 0 := by
        rw [List.getD_eq_getElem _ _ hk]
        exact hpj _ (List.getElem_mem hk)
      have hmap : (pj.map Real.log).getD k 0 = Real.log (pj.getD k 0) :=
        getD_map_d Real.log pj k 0 0 Real.log_zero
      rw [hmap, Real.log_mul (ne_of_gt (hpr p (by simp))) (ne_of_gt hpjk)]
      rw [ih ks pj (fun y hy => hpr y (by simp [hy])) hpj
        (fun y hy => hind y (by simp [hy]))]

theorem zipWith_combine_pos : ∀ (pr : List ℝ) (ind : List ℕ) (pj : List ℝ),
    (∀ x ∈ pr, 0 < x) → (∀ x ∈ pj, 0 < x) → (∀ k ∈ ind, k < pj.length) →
    ∀ x ∈ List.zipWith (fun v k => v * pj.getD k 0) pr ind, 0 < x := by
  intro pr
  induction pr with
  | nil => intro ind pj _ _ _ x hx; simp at hx
  | cons p ps ih =>
    intro ind pj hpr hpj hind x hx
    cases ind with
    | nil => simp at hx
    | cons k ks =>
      rw [List.zipWith_cons_cons] at hx
      rcases List.mem_cons.mp hx with h | h
      · subst h
        have hk : k < pj.length := hind k (by simp)
        have hpjk : 0 < pj.getD k 0 := by
          rw [List.getD_eq_getElem _ _ hk]
          exact hpj _ (List.getElem_mem hk)
        exact mul_pos (hpr p (by simp)) hpjk
      · exact ih ks pj (fun y hy => hpr y (by simp [hy])) hpj
          (fun y hy => hind y (by simp [hy])) x h

/-- Paired-fold transfer: a relation preserved by corresponding steps holds
between the results of the two folds. -/
theorem foldl_rel {γ δ β : Type} (R : γ → δ → Prop)
    (stepA : γ → β → γ) (stepB : δ → β → δ) (l : List β) (a : γ) (b : δ)
    (hab : R a b)
    (hstep : ∀ x ∈ l, ∀ a2 b2, R a2 b2 → R (stepA a2 x) (stepB b2 x)) :
    R (l.foldl stepA a) (l.foldl stepB b) := by
  induction l generalizing a b with
  | nil => exact hab
  | cons hd tl ih =>
    exact ih _ _ (hstep hd (by simp) a b hab)
      (fun x hx a2 b2 h => hstep x (by simp [hx]) a2 b2 h)

/-- Log-domain transfer for the incoming-message product prodJ: on the
elementwise-log image of the message table, the log-domain product is the
elementwise log of the linear product, whose entries are positive and whose
length is the state count of var(j). -/
theorem prodJ_log (g : BPGraph ℝ) (msgs : List (List (TProb ℝ))) (j I : ℕ)
    (hlen : ∀ s, s < (nbVg g j).length →
      ((msgs.getD j []).getD s []).length = (varG g j).states)
    (hpos : ∀ s, s < (nbVg g j).length → ∀ x ∈ (msgs.getD j []).getD s [], 0 < x) :
    prodJ true g (msgs.map (fun row => row.map (fun m => m.map Real.log))) j I
        = (prodJ false g msgs j I).map Real.log
    ∧ (∀ x ∈ prodJ false g msgs j I, 0 < x)
    ∧ (prodJ false g msgs j I).length = (varG g j).states := by
  have key := foldl_rel
    (fun (a b : List ℝ) => a = b.map Real.log ∧ (∀ x ∈ b, 0 < x) ∧
      b.length = (varG g j).states)
    (fun acc sJ => if sJ.2 = I then acc
      else List.zipWith (fun a b => a + b) acc
        (((msgs.map (fun row => row.map (fun m => m.map Real.log))).getD j []).getD sJ.1 []))
    (fun acc sJ => if sJ.2 = I then acc
      else List.zipWith (fun a b => a * b) acc ((msgs.getD j []).getD sJ.1 []))
    ((nbVg g j).enum)
    (List.replicate (varG g j).states (0 : ℝ))
    (List.replicate (varG g j).states (1 : ℝ))
    ⟨by rw [List.map_replicate, Real.log_one],
     fun x hx => by rw [List.eq_of_mem_replicate hx]; norm_num,
     by simp⟩
    ?_
  · exact key
  · intro x hx a2 b2 hr
    obtain ⟨h1, h2, h3⟩ := hr
    by_cases hxi : x.2 = I
    · simp only [if_pos hxi]
      exact ⟨h1, h2, h3⟩
    · simp only [if_neg hxi]
      have hs : x.1 < (nbVg g j).length := List.fst_lt_of_mem_enum hx
      refine ⟨?_, ?_, ?_⟩
      · rw [logTable_getD, h1]
        exact zipWith_add_log b2 _ h2 (hpos x.1 hs)
      · exact zipWith_mul_pos b2 _ h2 (hpos x.1 hs)
      · rw [List.length_zipWith, h3, hlen x.1 hs]
        exact Nat.min_self _

/-- Log-domain transfer for the outer product loop msgProd. -/
theorem msgProd_log (g : BPGraph ℝ) (msgs : List (List (TProb ℝ))) (i I : ℕ)
    (hjst : ∀ j ∈ nbFg g I, 0 < (varG g j).states)
    (hlen : ∀ j ∈ nbFg g I, ∀ s, s < (nbVg g j).length →
      ((msgs.getD j []).getD s []).length = (varG g j).states)
    (hpos : ∀ j ∈ nbFg g I, ∀ s, s < (nbVg g j).length →
      ∀ x ∈ (msgs.getD j []).getD s [], 0 < x)
    (hFpos : ∀ x ∈ (factorG g I).p, 0 < x) :
    msgProd Real.log true g (msgs.map (fun row => row.map (fun m => m.map Real.log))) i I
      = (msgProd Real.log false g msgs i I).map Real.log
    ∧ (∀ x ∈ msgProd Real.log false g msgs i I, 0 < x) := by
  have key := foldl_rel
    (fun (a b : List ℝ) => a = b.map Real.log ∧ (∀ x ∈ b, 0 < x))
    (fun pr j => if j = i then pr
      else combineRow true pr (IndexFor [varG g j] (factorG g I).vs)
        (prodJ true g (msgs.map (fun row => row.map (fun m => m.map Real.log))) j I))
    (fun pr j => if j = i then pr
      else combineRow false pr (IndexFor [varG g j] (factorG g I).vs)
        (prodJ false g msgs j I))
    (nbFg g I) ((factorG g I).p.map Real.log) ((factorG g I).p)
    ⟨rfl, hFpos⟩
    ?_
  · exact key
  · intro j hj a2 b2 hr
    obtain ⟨h1, h2⟩ := hr
    by_cases hji : j = i
    · simp only [if_pos hji]
      exact ⟨h1, h2⟩
    · simp only [if_neg hji]
      obtain ⟨pj1, pj2, pj3⟩ := prodJ_log g msgs j I (hlen j hj) (hpos j hj)
      have hind : ∀ k ∈ IndexFor [varG g j] (factorG g I).vs,
          k < (prodJ false g msgs j I).length := by
        intro k hk
        rw [pj3]
        exact IndexFor_single_lt (varG g j) _ (hjst j hj) k hk
      constructor
      · rw [h1, pj1]
        exact zipWith_combine_log b2 _ _ h2 pj2 hind
      · exact zipWith_combine_pos b2 _ _ h2 pj2 hind

/-- Log-domain transfer for the subtract-max/exp renormalization: applied
to the elementwise log of a positive vector it rescales the vector by the
positive constant exp(-max). -/
theorem renorm_log (b : List ℝ) (hb : ∀ x ∈ b, 0 < x) :
    renorm Real.exp true (b.map Real.log)
      = b.map (fun x => x * Real.exp (-maxEl (b.map Real.log))) := by
  show (b.map Real.log).map
      (fun v => Real.exp (v - maxEl (b.map Real.log))) = _
  rw [List.map_map]
  refine List.map_congr_left ?_
  intro x hx
  show Real.exp (Real.log x - maxEl (b.map Real.log)) = x * Real.exp (-maxEl (b.map Real.log))
  rw [sub_eq_add_neg, Real.exp_add, Real.exp_log (hb x hx)]

theorem accumulate_zip_scale (c : ℝ) : ∀ (b : List ℝ) (ind : List ℕ) (m : List ℝ),
    accumulate ((b.map (fun x => x * c)).zip ind) (m.map (fun x => x * c))
      = (accumulate (b.zip ind) m).map (fun x => x * c) := by
  intro b
  induction b with
  | nil => intro ind m; rfl
  | cons x xs ih =>
    intro ind m
    cases ind with
    | nil => rfl
    | cons k ks =>
      show accumulate ((xs.map fun x => x * c).zip ks)
          ((m.map fun x => x * c).set k ((m.map fun x => x * c).getD k 0 + x * c))
        = (accumulate (xs.zip ks) (m.set k (m.getD k 0 + x))).map fun x => x * c
      rw [← ih ks]
      congr 1
      have hg : (m.map fun y => y * c).getD k 0 = (m.getD k 0) * c :=
        getD_map_d _ m k 0 0 (zero_mul c)
      rw [hg, List.map_set]
      congr 1
      rw [add_mul]

theorem normPROB_scale (l : List ℝ) (c : ℝ) (hc : c ≠ 0) :
    normPROB (l.map (fun x => x * c)) = normPROB l := by
  have hsum : totalSum (l.map (fun x => x * c)) = totalSum l * c := by
    simpa [totalSum] using List.sum_map_mul_right l id c
  simp only [normPROB, hsum, List.map_map]
  refine List.map_congr_left ?_
  intro x hx
  show x * c / (totalSum l * c) = x / totalSum l
  exact mul_div_mul_right x (totalSum l) hc

/-- The elementwise-log image of a message state: the log-domain
representation of the same messages (both tables). -/
noncomputable def logState (st : BPState ℝ) : BPState ℝ :=
  ⟨st.message.map (fun row => row.map (fun m => m.map Real.log)),
   st.newMessage.map (fun row => row.map (fun m => m.map Real.log))⟩

/-- C7: in exact real arithmetic, on strictly positive factors and
messages, the log-domain message update (logs of the factor, log-message
sums through the index maps, subtract-max, exp, marginalize, normalize,
store the log) computes exactly the elementwise log of the linear-domain
message on the same inputs, and the log-domain and linear-domain beliefV
factors coincide. -/
theorem C7_logdomain_equiv (g : BPGraph ℝ) (st : BPState ℝ) (i sI : ℕ)
    (hjst : ∀ j ∈ nbFg g ((nbVg g i).getD sI 0), 0 < (varG g j).states)
    (hmlen : ∀ j ∈ nbFg g ((nbVg g i).getD sI 0), ∀ s, s < (nbVg g j).length →
      (messageAt st j s).length = (varG g j).states)
    (hmpos : ∀ j ∈ nbFg g ((nbVg g i).getD sI 0), ∀ s, s < (nbVg g j).length →
      ∀ x ∈ messageAt st j s, 0 < x)
    (hFpos : ∀ x ∈ (factorG g ((nbVg g i).getD sI 0)).p, 0 < x)
    (hnpos : ∀ s, s < (nbVg g i).length → ∀ x ∈ newMessageAt st i s, 0 < x) :
    calcNewMessage Real.log Real.exp true g (logState st) i sI
        = (calcNewMessage Real.log Real.exp false g st i sI).map Real.log
    ∧ beliefV Real.log Real.exp true g (logState st) i
        = beliefV Real.log Real.exp false g st i := by
  refine ⟨?_, ?_⟩
  · obtain ⟨hm1, hm2⟩ :=
      msgProd_log g st.message i ((nbVg g i).getD sI 0) hjst hmlen hmpos hFpos
    have e1 : calcNewMessage Real.log Real.exp true g (logState st) i sI
        = (normPROB (accumulate
            ((renorm Real.exp true (msgProd Real.log true g
              (st.message.map (fun row => row.map (fun m => m.map Real.log))) i
              ((nbVg g i).getD sI 0))).zip
              (IndexFor [varG g i] (factorG g ((nbVg g i).getD sI 0)).vs))
            (List.replicate (varG g i).states 0))).map Real.log := rfl
    have e2 : calcNewMessage Real.log Real.exp false g st i sI
        = normPROB (accumulate
            ((msgProd Real.log false g st.message i ((nbVg g i).getD sI 0)).zip
              (IndexFor [varG g i] (factorG g ((nbVg g i).getD sI 0)).vs))
            (List.replicate (varG g i).states 0)) := rfl
    rw [e1, e2, hm1, renorm_log _ hm2]
    have hrepl : (List.replicate (varG g i).states (0 : ℝ)).map
        (fun x => x * Real.exp (-maxEl ((msgProd Real.log false g st.message i
          ((nbVg g i).getD sI 0)).map Real.log)))
        = List.replicate (varG g i).states 0 := by
      rw [List.map_replicate, zero_mul]
    have hacc := accumulate_zip_scale
      (Real.exp (-maxEl ((msgProd Real.log false g st.message i
        ((nbVg g i).getD sI 0)).map Real.log)))
      (msgProd Real.log false g st.message i ((nbVg g i).getD sI 0))
      (IndexFor [varG g i] (factorG g ((nbVg g i).getD sI 0)).vs)
      (List.replicate (varG g i).states 0)
    rw [hrepl] at hacc
    rw [hacc, normPROB_scale _ _ (Real.exp_ne_zero _)]
  · have key := foldl_rel
      (fun (a b : List ℝ) => a = b.map Real.log ∧ (∀ x ∈ b, 0 < x))
      (fun acc sJ => List.zipWith (fun a b => a + b) acc (newMessageAt (logState st) i sJ.1))
      (fun acc sJ => List.zipWith (fun a b => a * b) acc (newMessageAt st i sJ.1))
      ((nbVg g i).enum)
      (List.replicate (varG g i).states (0 : ℝ))
      (List.replicate (varG g i).states (1 : ℝ))
      ⟨by rw [List.map_replicate, Real.log_one],
       fun x hx => by rw [List.eq_of_mem_replicate hx]; norm_num⟩
      ?_
    · have hb1 : beliefVProd true g (logState st) i
          = (beliefVProd false g st i).map Real.log := key.1
      have hb2 : ∀ x ∈ beliefVProd false g st i, 0 < x := key.2
      show (⟨[varG g i], normPROB (renorm Real.exp true (beliefVProd true g (logState st) i))⟩
            : TFactor ℝ)
          = ⟨[varG g i], normPROB (renorm Real.exp false (beliefVProd false g st i))⟩
      rw [hb1, renorm_log _ hb2]
      have hpass : renorm Real.exp false (beliefVProd false g st i)
          = beliefVProd false g st i := rfl
      rw [hpass, normPROB_scale _ _ (Real.exp_ne_zero _)]
    · intro x hx a2 b2 hr
      obtain ⟨h1, h2⟩ := hr
      have hs : x.1 < (nbVg g i).length := List.fst_lt_of_mem_enum hx
      have hlog : newMessageAt (logState st) i x.1
          = (newMessageAt st i x.1).map Real.log := logTable_getD st.newMessage i x.1
      refine ⟨?_, zipWith_mul_pos b2 _ h2 (hnpos x.1 hs)⟩
      show List.zipWith (fun a b => a + b) a2 (newMessageAt (logState st) i x.1)
          = (List.zipWith (fun a b => a * b) b2 (newMessageAt st i x.1)).map Real.log
      rw [hlog, h1]
      exact zipWith_add_log b2 _ h2 (hnpos x.1 hs)

/-- Concrete graph for the C7 witness: one variable with one state and one
factor with the single value 1. -/
def gW7 : BPGraph ℝ := ⟨[⟨0, 1⟩], [⟨[⟨0, 1⟩], [1]⟩], [[0]], [[0]]⟩

/-- Concrete all-ones state for the C7 witness. -/
def stW7 : BPState ℝ := ⟨[[[1]]], [[[1]]]⟩

theorem C7_logdomain_equiv_witness :
    calcNewMessage Real.log Real.exp true gW7 (logState stW7) 0 0
        = (calcNewMessage Real.log Real.exp false gW7 stW7 0 0).map Real.log
    ∧ beliefV Real.log Real.exp true gW7 (logState stW7) 0
        = beliefV Real.log Real.exp false gW7 stW7 0 := by
  refine C7_logdomain_equiv gW7 stW7 0 0 ?_ ?_ ?_ ?_ ?_
  · intro j hj
    simp only [nbFg, nbVg, gW7] at hj ⊢
    simp at hj
    subst hj
    norm_num [varG, gW7]
  · intro j hj s hs
    simp only [nbFg, nbVg, gW7] at hj
    simp at hj
    subst hj
    simp only [nbVg, gW7] at hs
    simp at hs
    subst hs
    norm_num [messageAt, stW7, varG, gW7]
  · intro j hj s hs x hx
    simp only [nbFg, nbVg, gW7] at hj
    simp at hj
    subst hj
    simp only [nbVg, gW7] at hs
    simp at hs
    subst hs
    simp only [messageAt, stW7] at hx
    simp at hx
    subst hx
    norm_num
  · intro x hx
    simp only [factorG, nbVg, gW7] at hx
    simp at hx
    subst hx
    norm_num
  · intro s hs x hx
    simp only [nbVg, gW7] at hs
    simp at hs
    subst hs
    simp only [newMessageAt, stW7] at hx
    simp at hx
    subst hx
    norm_num

/-- The distance measures of the spec (dai/prob.h DistType). -/
inductive DistType where
  | L1
  | LINF
  | TV
  | KL
  | HEL
deriving DecidableEq

/-- Modelled from the spec: the distance on value vectors of dai/prob.h
(whose source is not given): L1 is the sum of absolute differences, LINF
their maximum, TV half the L1, KL is the sum of a·log(a/b) treating
0·log 0 = 0 (the divergence at b = 0, a > 0 has no counterpart in exact
real arithmetic), and Hellinger half the sum of squared differences of
square roots. -/
noncomputable def distP (a b : TProb ℝ) : DistType → ℝ
  | DistType.L1 => (List.zipWith (fun x y => |x - y|) a b).sum
  | DistType.LINF => maxEl (List.zipWith (fun x y => |x - y|) a b)
  | DistType.TV => (List.zipWith (fun x y => |x - y|) a b).sum / 2
  | DistType.KL => (List.zipWith
      (fun x y => if x = 0 then 0 else x * Real.log (x / y)) a b).sum
  | DistType.HEL => (List.zipWith
      (fun x y => (Real.sqrt x - Real.sqrt y) ^ 2) a b).sum / 2

/-- The free function dist on TFactor (factor.h lines 506-515): −1 when
either VarSet is empty, otherwise the distance of the value vectors. -/
noncomputable def distF (f g : TFactor ℝ) (dt : DistType) : ℝ :=
  if f.vs = [] ∨ g.vs = [] then -1 else distP f.p g.p dt

/-- C10 counterexample: on non-empty equal VarSets the KL measure applied
to the unnormalized factors [1/2] and [1] returns (1/2)·log(1/2) < 0, so
not every distance value returned on non-empty equal VarSets is
nonnegative. -/
theorem C10_counterexample_KL_negative :
    distF ⟨[⟨0, 1⟩], [1 / 2]⟩ ⟨[⟨0, 1⟩], [1]⟩ DistType.KL < 0 ∧
    (⟨[⟨0, 1⟩], [1 / 2]⟩ : TFactor ℝ).vs ≠ [] ∧
    (⟨[⟨0, 1⟩], [1]⟩ : TFactor ℝ).vs ≠ [] ∧
    (⟨[⟨0, 1⟩], [1 / 2]⟩ : TFactor ℝ).vs = (⟨[⟨0, 1⟩], [1]⟩ : TFactor ℝ).vs := by
  refine ⟨?_, by simp, by simp, rfl⟩
  have h1 : distF ⟨[⟨0, 1⟩], [1 / 2]⟩ ⟨[⟨0, 1⟩], [1]⟩ DistType.KL
      = distP [1 / 2] [1] DistType.KL := by
    rw [distF, if_neg]
    simp
  rw [h1]
  have h2 : distP [1 / 2] [1] DistType.KL
      = ((1 : ℝ) / 2) * Real.log ((1 / 2) / 1) := by
    show (List.zipWith (fun x y => if x = 0 then 0 else x * Real.log (x / y))
        [(1 : ℝ) / 2] [(1 : ℝ)]).sum = _
    rw [List.zipWith_cons_cons, List.zipWith_nil_right, List.sum_cons, List.sum_nil,
      add_zero, if_neg (by norm_num)]
  rw [h2]
  have h3 : Real.log ((1 : ℝ) / 2 / 1) < 0 := by
    apply Real.log_neg
    · norm_num
    · norm_num
  exact mul_neg_of_pos_of_neg (by norm_num) h3

theorem zipWith_nonneg {β γ : Type} (f : β → γ → ℝ) (hf : ∀ x y, 0 ≤ f x y) :
    ∀ (a : List β) (b : List γ), ∀ z ∈ List.zipWith f a b, 0 ≤ z := by
  intro a
  induction a with
  | nil => intro b z hz; simp at hz
  | cons p ps ih =>
    intro b z hz
    cases b with
    | nil => simp at hz
    | cons q qs =>
      rw [List.zipWith_cons_cons] at hz
      rcases List.mem_cons.mp hz with h | h
      · subst h; exact hf p q
      · exact ih qs z h

theorem le_foldl_max (l : List ℝ) (a : ℝ) : a ≤ l.foldl (fun u v => max u v) a := by
  induction l generalizing a with
  | nil => exact le_refl a
  | cons y t ih =>
    exact le_trans (le_max_left a y) (ih (max a y))

theorem maxEl_nonneg (l : List ℝ) (h : ∀ x ∈ l, 0 ≤ x) : 0 ≤ maxEl l := by
  cases l with
  | nil => exact le_refl 0
  | cons x xs =>
    exact le_trans (h x (by simp)) (le_foldl_max xs x)

/-- C10 (amended): dist on factors returns −1 whenever either VarSet is
empty, and every distance value of the L1, LINF, TV and Hellinger measures
is nonnegative (the KL measure of unnormalized factors may be negative, see
the counterexample). -/
theorem C10_dist_sentinel (f g : TFactor ℝ) (dt : DistType) :
    (f.vs = [] ∨ g.vs = [] → distF f g dt = -1) ∧
    (f.vs ≠ [] → g.vs ≠ [] → dt ≠ DistType.KL → 0 ≤ distF f g dt) := by
  constructor
  · intro h
    rw [distF, if_pos h]
  · intro h1 h2 h3
    rw [distF, if_neg (by simp [h1, h2])]
    cases dt with
    | L1 =>
      exact List.sum_nonneg (zipWith_nonneg _ (fun x y => abs_nonneg _) f.p g.p)
    | LINF =>
      exact maxEl_nonneg _ (zipWith_nonneg _ (fun x y => abs_nonneg _) f.p g.p)
    | TV =>
      have := List.sum_nonneg (zipWith_nonneg _ (fun x y => abs_nonneg (x - y)) f.p g.p)
      exact div_nonneg this (by norm_num)
    | KL => exact absurd rfl h3
    | HEL =>
      have := List.sum_nonneg
        (zipWith_nonneg _ (fun x y => sq_nonneg (Real.sqrt x - Real.sqrt y)) f.p g.p)
      exact div_nonneg this (by norm_num)

theorem C10_dist_sentinel_witness :
    distF ⟨[], [1]⟩ ⟨[⟨0, 1⟩], [1]⟩ DistType.L1 = -1 ∧
    0 ≤ distF ⟨[⟨0, 1⟩], [1]⟩ ⟨[⟨0, 1⟩], [2]⟩ DistType.L1 :=
  ⟨(C10_dist_sentinel ⟨[], [1]⟩ ⟨[⟨0, 1⟩], [1]⟩ DistType.L1).1 (Or.inl rfl),
   (C10_dist_sentinel ⟨[⟨0, 1⟩], [1]⟩ ⟨[⟨0, 1⟩], [2]⟩ DistType.L1).2
     (by simp) (by simp) (by simp)⟩

end LibDAI
